import Mathlib

/-!
Verification of the midilang chord decoder (`src/parser.rs::parse_chord`,
`c_major`), the AST builder (`MidiASTBuilder`), the MIDI event walk
(`parser.rs::parse`) and the codegen init/cleanup sequencing
(`src/compiler.rs::MidiCompiler`).

Machine integers are embedded as `Nat`/`Int` with explicit wraparound:
`wrap8` is two's-complement `i8` wrapping (Rust release-profile semantics),
`sub8` is `u8` subtraction.  A second, checked scan
(`scanArgChecked`) models the debug-profile overflow checks, returning
`none` where Rust would panic.
-/

namespace Midilang

/-- Two's-complement wrap of an `Int` into the `i8` range `[-128, 127]`. -/
def wrap8 (x : Int) : Int :=
  (x + 128) % 256 - 128

/-- Wrapping `u8` subtraction. -/
def sub8 (a b : Nat) : Nat :=
  (a % 256 + 256 - b % 256) % 256

/-- `2 ^ n` on `Int`, written recursively so the kernel evaluates it directly. -/
def twoPow : Nat → Int
  | 0 => 1
  | n + 1 => 2 * twoPow n

/-- Source `Position { start, end }` (`end` is a Lean keyword, renamed `stop`). -/
structure Position where
  start : Nat
  stop : Nat
deriving DecidableEq

/-- Source `MParseError` from `parser.rs`. -/
inductive MParseError where
  | NoTracks
  | UnclosedLoop (positions : List Position)
  | DanglingLoop (position : Position)
  | NonDiatonic
deriving DecidableEq

mutual

/-- Source `MidiInstruction { position, instruction }`. -/
inductive MidiInstruction where
  | mk (position : Option Position) (instruction : MidiInstructionKind)

/-- Source `MidiInstructionKind`.  `Cell` amounts and pointer moves are `Int`
(the `i8`/`isize` ranges are maintained by explicit wrapping at each write). -/
inductive MidiInstructionKind where
  | IncrementCell (amount : Int)
  | MovePointer (amount : Int)
  | OutputCell
  | InputCell
  | Loop (body : List MidiInstruction)

end

def MidiInstruction.position : MidiInstruction → Option Position
  | .mk p _ => p

def MidiInstruction.instruction : MidiInstruction → MidiInstructionKind
  | .mk _ i => i

def MidiInstruction.new_inc (amount : Int) : MidiInstruction :=
  .mk none (.IncrementCell amount)

def MidiInstruction.new_move (amount : Int) : MidiInstruction :=
  .mk none (.MovePointer amount)

def MidiInstruction.new_close_loop : MidiInstruction :=
  .mk none (.Loop [])

def MidiInstruction.new_open_loop : MidiInstruction :=
  .mk (some ⟨0, 0⟩) (.Loop [])

def MidiInstruction.new_output : MidiInstruction :=
  .mk none .OutputCell

def MidiInstruction.new_input : MidiInstruction :=
  .mk none .InputCell

/-- Whether the instruction kind is a `Loop`. -/
def MidiInstructionKind.isLoop : MidiInstructionKind → Bool
  | .Loop _ => true
  | _ => false

/-- The `for vv in vals[1..]` scan of `parse_chord`: `prev` is seeded with the
root pitch class, `base` is the first value distinct from `prev`, every later
value distinct from `prev` contributes `2 ^ (vv - bb - 1)` (wrapping `i8`
arithmetic), and the scan breaks as soon as `vv - bb - 1 > 8`. -/
def scanArg : List Nat → Nat → Option Nat → Option Int → Option Int
  | [], _, _, arg => arg
  | vv :: rest, prev, base, arg =>
    if prev = vv then
      scanArg rest prev base arg
    else
      match base with
      | some bb =>
        if 8 < sub8 (sub8 vv bb) 1 then
          arg
        else
          scanArg rest prev base
            (some (match arg with
              | none => wrap8 (twoPow (sub8 (sub8 vv bb) 1))
              | some xx => wrap8 (xx + wrap8 (twoPow (sub8 (sub8 vv bb) 1)))))
      | none => scanArg rest vv (some vv) arg

/-- The decoded amount of a chord `v0 :: rest`: the scan's accumulator,
defaulting to `1` (`arg.unwrap_or(1)`). -/
def chordAmount (v0 : Nat) (rest : List Nat) : Int :=
  (scanArg rest (v0 % 12) none none).getD 1

/-- Source `c_major`: the fixed diatonic decoding table. -/
def c_major (root : Nat) (arg : Int) : Except MParseError MidiInstruction :=
  if root = 0 then .ok .new_close_loop
  else if root = 2 then .ok (.new_move (-arg))
  else if root = 4 then .ok (.new_move arg)
  else if root = 5 then .ok (.new_inc (wrap8 (-arg)))
  else if root = 7 then .ok .new_open_loop
  else if root = 9 then .ok (.new_inc arg)
  else if root = 11 then
    (if arg = 1 then .ok .new_input else .ok .new_output)
  else .error .NonDiatonic

/-- Source `parse_chord` specialised to the `c_major` key, with the
`vals.get(0).unwrap()` panic on an empty vector modelled as `none`. -/
def parse_chord (vals : List Nat) : Option (Except MParseError MidiInstruction) :=
  match vals with
  | [] => none
  | v0 :: rest => some (c_major (v0 % 12) (chordAmount v0 rest))

/-- `2_i8.pow` under debug-profile overflow checking: `none` models the panic
when `2 ^ tmp` leaves the `i8` range. -/
def powI8 (tmp : Nat) : Option Int :=
  if twoPow tmp ≤ 127 then some (twoPow tmp) else none

/-- `i8` addition under debug-profile overflow checking. -/
def addI8 (a b : Int) : Option Int :=
  if -128 ≤ a + b ∧ a + b ≤ 127 then some (a + b) else none

/-- The accumulation scan under Rust debug-profile semantics: `u8` subtraction
underflow, `2_i8.pow` overflow and `i8` addition overflow each panic
(modelled as `none`) instead of wrapping. -/
def scanArgChecked : List Nat → Nat → Option Nat → Option Int → Option (Option Int)
  | [], _, _, arg => some arg
  | vv :: rest, prev, base, arg =>
    if prev = vv then
      scanArgChecked rest prev base arg
    else
      match base with
      | some bb =>
        if vv < bb + 1 then none
        else
          let tmp := vv - bb - 1
          if 8 < tmp then
            some arg
          else
            match powI8 tmp with
            | none => none
            | some toAdd =>
              match arg with
              | none => scanArgChecked rest prev base (some toAdd)
              | some xx =>
                match addI8 xx toAdd with
                | none => none
                | some s => scanArgChecked rest prev base (some s)
      | none => scanArgChecked rest vv (some vv) arg

/-- `parse_chord` under debug-profile semantics: `none` is a panic (empty
vector, or an arithmetic overflow inside the scan). -/
def parse_chordChecked (vals : List Nat) : Option (Except MParseError MidiInstruction) :=
  match vals with
  | [] => none
  | v0 :: rest =>
    match scanArgChecked rest (v0 % 12) none none with
    | none => none
    | some arg => some (c_major (v0 % 12) (arg.getD 1))

/-- Source `MidiASTBuilder { body, size, loop_stack }`.  The stack's head is
the most recently opened loop (Rust pushes and pops at the `Vec`'s end, so the
`Vec`'s bottom-to-top order is `loop_stack.reverse` here). -/
structure MidiASTBuilder where
  body : List MidiInstruction
  size : Nat
  loop_stack : List (List MidiInstruction × Nat)

def MidiASTBuilder.new : MidiASTBuilder :=
  ⟨[], 0, []⟩

/-- Source `MidiASTBuilder::push`.  The builder state is returned alongside
the result because Rust's `&mut self` keeps it live after an `Err`: the
dangling-close branch returns early, before `size += 1`. -/
def MidiASTBuilder.push (b : MidiASTBuilder) (inst : MidiInstruction) :
    Except MParseError Unit × MidiASTBuilder :=
  match inst with
  | .mk (some _) (.Loop _) =>
    (.ok (), ⟨[], b.size + 1, (b.body, b.size) :: b.loop_stack⟩)
  | .mk none (.Loop _) =>
    match b.loop_stack with
    | (before_loop, loop_start) :: stack_rest =>
      (.ok (), ⟨before_loop ++ [.mk (some ⟨loop_start, b.size⟩) (.Loop b.body)],
        b.size + 1, stack_rest⟩)
    | [] => (.error (.DanglingLoop ⟨b.size, b.size⟩), b)
  | .mk _ k =>
    (.ok (), ⟨b.body ++ [.mk (some ⟨b.size, b.size⟩) k], b.size + 1, b.loop_stack⟩)

/-- Source `MidiASTBuilder::into_mast`. -/
def MidiASTBuilder.into_mast (b : MidiASTBuilder) : Except MParseError (List MidiInstruction) :=
  if b.loop_stack.isEmpty then
    .ok b.body
  else
    .error (.UnclosedLoop (b.loop_stack.reverse.map fun s => ⟨s.2, s.2⟩))

/-- Push a list of instructions in order, stopping at the first error
(`ast_builder.push(node)?` in `parse`). -/
def runPushes (b : MidiASTBuilder) : List MidiInstruction → Except MParseError MidiASTBuilder
  | [] => .ok b
  | i :: is =>
    match b.push i with
    | (.ok _, b2) => runPushes b2 is
    | (.error e, _) => .error e

/-- Push a list of instructions into a fresh builder and finalize. -/
def buildProgram (insts : List MidiInstruction) : Except MParseError (List MidiInstruction) :=
  match runPushes .new insts with
  | .ok b => b.into_mast
  | .error e => .error e

example : parse_chord [5] = some (.ok (.new_inc (-1))) := rfl
example : parse_chord [11] = some (.ok .new_input) := rfl
example : parse_chord [26, 33, 38] = some (.ok (.new_move (-16))) := rfl
example : parse_chord [40, 44, 46, 48] = some (.ok (.new_move 10)) := rfl
example : parse_chord [9, 27, 30] = some (.ok (.new_inc 4)) := rfl
example : parse_chord [11, 23, 29] = some (.ok .new_output) := rfl
example : parse_chord [8, 10, 22] = some (.error .NonDiatonic) := rfl

/-- Source `MCompileError` from `compiler.rs`. -/
inductive MCompileError where
  | LLVMError (msg : String)
  | UninitializedContext
deriving DecidableEq

/-- One LLVM-API action of the code generator, recorded as a trace event. -/
inductive LLVMEvent where
  | declareFunction (name : String)
  | appendBlock (name : String)
  | callFn (fname : String) (dest : String)
  | alloca (dest : String)
  | store
  | ret
deriving DecidableEq

/-- Source `MidiContext { cells_ptr, cell_idx_ptr, main_fn }`; LLVM value
references are opaque handles, modelled as `Nat` ids. -/
structure MidiContext where
  cells_ptr : Nat
  cell_idx_ptr : Nat
  main_fn : Nat
deriving DecidableEq

/-- Source `MidiCompiler`: the `LLVMBuilder`/`LLVMModule` pair is modelled by
the trace of instructions emitted through it. -/
structure MidiCompiler where
  blocks : Option (Nat × Nat)
  context : Option MidiContext
  emitted : List LLVMEvent
  strings : List String

/-- Source `MidiCompiler::new`. -/
def MidiCompiler.new (module_name : String) : MidiCompiler :=
  ⟨none, none, [], [module_name]⟩

def MidiCompiler.emit (m : MidiCompiler) (e : LLVMEvent) : MidiCompiler :=
  { m with emitted := m.emitted ++ [e] }

/-- Source `MidiCompiler::add_c_declarations`. -/
def MidiCompiler.add_c_declarations (m : MidiCompiler) : MidiCompiler :=
  ((((m.emit (.declareFunction "malloc")).emit
    (.declareFunction "free")).emit
    (.declareFunction "putchar")).emit
    (.declareFunction "getchar")).emit
    (.declareFunction "llvm.memset.p0i8.i32")

/-- Source `MidiCompiler::allocate_cells` (the `num_cells` argument only feeds
the malloc call's operand, which the trace does not record). -/
def MidiCompiler.allocate_cells (m : MidiCompiler) : MidiCompiler :=
  (m.emit (.callFn "malloc" "cells")).emit (.callFn "llvm.memset.p0i8.i32" "")

/-- Source `MidiCompiler::create_cell_idx_ptr`. -/
def MidiCompiler.create_cell_idx_ptr (m : MidiCompiler) : MidiCompiler :=
  (m.emit (.alloca "cell_idx_ptr")).emit .store

/-- Source `MidiCompiler::init`: declarations, main function, the two initial
blocks, tape allocation, cursor allocation, then the context is established.
It returns `Ok` unconditionally. -/
def MidiCompiler.init (m : MidiCompiler) (_num_cells : Nat) :
    Except MCompileError Unit × MidiCompiler :=
  let m1 := m.add_c_declarations
  let m2 := (m1.emit (.appendBlock "init")).emit (.appendBlock "start")
  let m3 := { m2 with blocks := some (0, 1) }
  let m4 := m3.allocate_cells
  let m5 := m4.create_cell_idx_ptr
  (.ok (), { m5 with context := some ⟨1, 2, 0⟩ })

/-- Source `MidiCompiler::cleanup`: with a context it frees the tape and emits
the return; without one it returns `UninitializedContext` having emitted
nothing. -/
def MidiCompiler.cleanup (m : MidiCompiler) : Except MCompileError Unit × MidiCompiler :=
  match m.context with
  | some _ => (.ok (), (m.emit (.callFn "free" "free_cells")).emit .ret)
  | none => (.error .UninitializedContext, m)

/-- One MIDI track event, restricted to what `parse` inspects: note-on,
note-off, and everything else (ignored). -/
inductive MidiEvent where
  | noteOn (key : Nat)
  | noteOff (key : Nat)
  | other
deriving DecidableEq

def MidiEvent.isNoteOn : MidiEvent → Bool
  | .noteOn _ => true
  | _ => false

/-- Outcome of the `parse` walk: `panic` models the
`vals.get(0).unwrap()` panic on an empty chord. -/
inductive PResult (α : Type) where
  | panic
  | perror (e : MParseError)
  | pok (a : α)

/-- Sequencing of the walk: a panic or error aborts, success continues
(the `?` / early-`return` control flow of `parse`). -/
def PResult.andThen {α β : Type} : PResult α → (α → PResult β) → PResult β
  | .panic, _ => .panic
  | .perror e, _ => .perror e
  | .pok a, f => f a

/-- The per-track mutable state of `parse`: the AST builder, the held-note
heap (`current_node`, as the multiset of its elements), and `notes_on`. -/
structure TrackState where
  builder : MidiASTBuilder
  current_node : List Nat
  notes_on : Int

/-- One iteration of the event loop in `parse`.  A `NoteOn` pushes its key
and increments `notes_on`; a `NoteOff` decrements it and, at zero, decodes
`current_node.into_sorted_vec()` (ascending sort) and pushes the result;
anything else is ignored. -/
def processEvent (st : TrackState) (ev : MidiEvent) : PResult TrackState :=
  match ev with
  | .noteOn key => .pok ⟨st.builder, st.current_node ++ [key], st.notes_on + 1⟩
  | .noteOff _ =>
    let n := st.notes_on - 1
    if n = 0 then
      match parse_chord (List.insertionSort (· ≤ ·) st.current_node) with
      | none => .panic
      | some (.ok node) =>
        match st.builder.push node with
        | (.ok _, b2) => .pok ⟨b2, [], n⟩
        | (.error e, _) => .perror e
      | some (.error e) => .perror e
    else
      .pok ⟨st.builder, st.current_node, n⟩
  | .other => .pok st

/-- The event loop over one track. -/
def processEvents (st : TrackState) : List MidiEvent → PResult TrackState
  | [] => .pok st
  | e :: es => (processEvent st e).andThen fun st2 => processEvents st2 es

/-- The track loop of `parse`: `notes_on` is reset to `0` for each track,
while the builder and `current_node` persist across tracks. -/
def processTracks (b : MidiASTBuilder) (node : List Nat) :
    List (List MidiEvent) → PResult (MidiASTBuilder × List Nat)
  | [] => .pok (b, node)
  | t :: ts =>
    (processEvents ⟨b, node, 0⟩ t).andThen fun st =>
      processTracks st.builder st.current_node ts

/-- The final `ast_builder.into_mast()` of `parse`. -/
def finishMast (b : MidiASTBuilder) : PResult (List MidiInstruction) :=
  match b.into_mast with
  | .ok prog => .pok prog
  | .error e => .perror e

/-- Source `parse`: the `NoTracks` check, the track walk, and finalization. -/
def parse (tracks : List (List MidiEvent)) : PResult (List MidiInstruction) :=
  if tracks.isEmpty then
    .perror .NoTracks
  else
    (processTracks .new [] tracks).andThen fun bn => finishMast bn.1

/-! Projection helpers used to state concrete results without needing
decidable equality on the nested `MidiInstruction` type. -/

/-- The amount carried by a decoded `IncrementCell`, if that is what the
decoder produced. -/
def decodedIncAmount : Option (Except MParseError MidiInstruction) → Option Int
  | some (.ok (.mk _ (.IncrementCell a))) => some a
  | _ => none

/-- The body of the second top-level instruction, when it is a `Loop`. -/
def secondLoopBody : Except MParseError (List MidiInstruction) → List MidiInstruction
  | .ok prog =>
    match prog.get? 1 with
    | some (.mk _ (.Loop body)) => body
    | _ => []
  | .error _ => []

/-- The position of the second top-level instruction. -/
def secondPosition : Except MParseError (List MidiInstruction) → Option Position
  | .ok prog =>
    match prog.get? 1 with
    | some i => i.position
    | none => none
  | .error _ => none

/-- The position of the first `Loop` in a list of instructions. -/
def firstLoopPosition : List MidiInstruction → Option Position
  | [] => none
  | .mk p (.Loop _) :: _ => p
  | _ :: rest => firstLoopPosition rest

/-- The length of a finished program. -/
def programLength : Except MParseError (List MidiInstruction) → Option Nat
  | .ok prog => some prog.length
  | .error _ => none

/-- Each top-level instruction's `IncrementCell` amount (or `none`), when the
parse succeeded. -/
def progIncAmounts : PResult (List MidiInstruction) → Option (List (Option Int))
  | .pok prog =>
    some (prog.map fun i =>
      match i with
      | .mk _ (.IncrementCell a) => some a
      | _ => none)
  | _ => none

/-- The seven-push input of the nested-loop property: `X, open, Y, open, Z,
close, close` with `X = IncrementCell 1`, `Y = MovePointer 1`,
`Z = IncrementCell 2`. -/
def c2Input : List MidiInstruction :=
  [.new_inc 1, .new_open_loop, .new_move 1, .new_open_loop, .new_inc 2,
   .new_close_loop, .new_close_loop]

/-- Leaf instructions stamped with `Position (s + i, s + i)` in order, the
shape the builder produces for a loop-free push sequence. -/
def stampFrom (s : Nat) : List MidiInstruction → List MidiInstruction
  | [] => []
  | .mk _ k :: is => .mk (some ⟨s, s⟩) k :: stampFrom (s + 1) is

/-- Modelled from the spec words of the amount formula (amended to count
every occurrence): skip leading copies of the root's pitch class, take the
next value as the base, and sum `2 ^ (v - base - 1)` over every later
occurrence `v` distinct from the base, wrapped into `i8`; default `1`. -/
def specAmount (v0 : Nat) (rest : List Nat) : Int :=
  match rest.dropWhile (fun v => v == v0 % 12) with
  | [] => 1
  | b :: after =>
    let terms := after.filter (fun v => v != b)
    if terms.isEmpty then 1
    else wrap8 ((terms.map fun v => twoPow (v - b - 1)).sum)

/-! Helper lemmas. -/

theorem wrap8_add_left (x y : Int) : wrap8 (wrap8 x + y) = wrap8 (x + y) := by
  unfold wrap8
  omega

theorem wrap8_add_right (x y : Int) : wrap8 (x + wrap8 y) = wrap8 (x + y) := by
  unfold wrap8
  omega

theorem parse_chord_single (p : Nat) : parse_chord [p] = some (c_major (p % 12) 1) :=
  rfl

theorem c_major_nondiatonic (root : Nat) (arg : Int)
    (h : root ∉ ([0, 2, 4, 5, 7, 9, 11] : List Nat)) :
    c_major root arg = .error .NonDiatonic := by
  simp only [List.mem_cons, List.not_mem_nil, or_false, not_or] at h
  obtain ⟨h0, h2, h4, h5, h7, h9, h11⟩ := h
  simp [c_major, h0, h2, h4, h5, h7, h9, h11]

/-- C1: decoding the single-note chord `[p]` for a diatonic pitch class
follows the table with amount `1` (`0 ↦` close marker, `2 ↦ MovePointer (-1)`,
`4 ↦ MovePointer 1`, `5 ↦ IncrementCell (-1)`, `7 ↦` open marker,
`9 ↦ IncrementCell 1`, `11 ↦ InputCell`), and any nonempty ascending chord
whose lowest note has a non-diatonic pitch class fails with `NonDiatonic`. -/
theorem chord_decode_diatonic_table :
    (∀ p : Nat,
      (p % 12 = 0 → parse_chord [p] = some (.ok .new_close_loop)) ∧
      (p % 12 = 2 → parse_chord [p] = some (.ok (.new_move (-1)))) ∧
      (p % 12 = 4 → parse_chord [p] = some (.ok (.new_move 1))) ∧
      (p % 12 = 5 → parse_chord [p] = some (.ok (.new_inc (-1)))) ∧
      (p % 12 = 7 → parse_chord [p] = some (.ok .new_open_loop)) ∧
      (p % 12 = 9 → parse_chord [p] = some (.ok (.new_inc 1))) ∧
      (p % 12 = 11 → parse_chord [p] = some (.ok .new_input))) ∧
    (∀ (v0 : Nat) (rest : List Nat),
      List.Sorted (· ≤ ·) (v0 :: rest) →
      v0 % 12 ∉ ([0, 2, 4, 5, 7, 9, 11] : List Nat) →
      parse_chord (v0 :: rest) = some (.error .NonDiatonic)) := by
  constructor
  · intro p
    refine ⟨?_, ?_, ?_, ?_, ?_, ?_, ?_⟩ <;>
      intro h <;> rw [parse_chord_single, h] <;> rfl
  · intro v0 rest _ h
    show some (c_major (v0 % 12) (chordAmount v0 rest)) = _
    rw [c_major_nondiatonic _ _ h]

/-- Witness for C1 at `p = 17` (pitch class 5) and the non-diatonic chord
`[8, 10]`. -/
theorem chord_decode_diatonic_table_w :
    parse_chord [17] = some (.ok (.new_inc (-1))) ∧
    parse_chord [8, 10] = some (.error .NonDiatonic) :=
  ⟨(chord_decode_diatonic_table.1 17).2.2.2.1 rfl,
   chord_decode_diatonic_table.2 8 [10] (by decide) (by decide)⟩

/-- C2 counterexample: pushing `X, open, Y, open, Z, close, close` makes the
nested loop span `(3, 5)` — the inner open is the fourth push (source index
3) — not `(2, 5)` as claimed. -/
theorem nested_loop_position_refuted :
    firstLoopPosition (secondLoopBody (buildProgram c2Input)) = some ⟨3, 5⟩ ∧
    firstLoopPosition (secondLoopBody (buildProgram c2Input)) ≠ some ⟨2, 5⟩ :=
  ⟨rfl, by decide⟩

/-- C2 amended: the seven pushes yield a 2-element top-level program whose
second element is a `Loop` at `(1, 6)`, and the nested `Loop` inside its body
is at `(3, 5)`. -/
theorem nested_loop_positions :
    buildProgram c2Input = .ok
      [.mk (some ⟨0, 0⟩) (.IncrementCell 1),
       .mk (some ⟨1, 6⟩) (.Loop
         [.mk (some ⟨2, 2⟩) (.MovePointer 1),
          .mk (some ⟨3, 5⟩) (.Loop [.mk (some ⟨4, 4⟩) (.IncrementCell 2)])])] ∧
    programLength (buildProgram c2Input) = some 2 ∧
    secondPosition (buildProgram c2Input) = some ⟨1, 6⟩ ∧
    firstLoopPosition (secondLoopBody (buildProgram c2Input)) = some ⟨3, 5⟩ :=
  ⟨rfl, rfl, rfl, rfl⟩

/-- C3: the guard `tmp > 8` does not stop the gap-7 power: on the sorted
chord `[9, 10, 18]` the code reaches `2_i8.pow(7) = 128`, which leaves the
`i8` range — a panic under debug-profile checking (`parse_chordChecked`
returns `none`), and a wrap to `-128` under release semantics, so the
"amount" of the produced instruction is negative instead of `128`. -/
theorem decoder_gap_overflow :
    parse_chordChecked [9, 10, 18] = none ∧
    parse_chord [9, 10, 18] = some (.ok (.new_inc (-128))) :=
  ⟨rfl, rfl⟩

/-- C7: cleanup with no established context returns `UninitializedContext`
and leaves the compiler untouched (nothing emitted); after `init` (which
always succeeds) cleanup returns `Ok`. -/
theorem cleanup_requires_context (m : MidiCompiler) (n : Nat)
    (h : m.context = none) :
    m.cleanup = (.error .UninitializedContext, m) ∧
    (m.init n).1 = .ok () ∧
    ((m.init n).2.cleanup).1 = .ok () := by
  refine ⟨?_, rfl, rfl⟩
  unfold MidiCompiler.cleanup
  rw [h]

/-- Witness for C7 on a fresh compiler. -/
theorem cleanup_requires_context_w :
    (MidiCompiler.new "midilang").cleanup =
      (.error .UninitializedContext, MidiCompiler.new "midilang") ∧
    ((MidiCompiler.new "midilang").init 30000).1 = .ok () ∧
    (((MidiCompiler.new "midilang").init 30000).2.cleanup).1 = .ok () :=
  cleanup_requires_context (MidiCompiler.new "midilang") 30000 rfl

/-- C8 counterexample: a close-loop push onto a fresh builder (empty loop
stack) returns `DanglingLoop` before `size += 1`, so `size` stays `0` instead
of becoming `1`. -/
theorem push_size_not_always_incremented :
    ((MidiASTBuilder.new.push .new_close_loop).1 =
      .error (.DanglingLoop ⟨0, 0⟩)) ∧
    (MidiASTBuilder.new.push .new_close_loop).2.size = 0 ∧
    (MidiASTBuilder.new.push .new_close_loop).2.size ≠ MidiASTBuilder.new.size + 1 :=
  ⟨rfl, rfl, by decide⟩

/-- C8 amended: every push that returns `Ok` increments `size` by exactly
one; the failing push (dangling close) leaves `size` unchanged. -/
theorem push_size_on_ok (b : MidiASTBuilder) (inst : MidiInstruction) :
    ((b.push inst).1 = .ok () → (b.push inst).2.size = b.size + 1) ∧
    ((b.push inst).1 ≠ .ok () → (b.push inst).2.size = b.size) := by
  obtain ⟨p, k⟩ := inst
  cases k with
  | Loop body =>
    cases p with
    | some pos => exact ⟨fun _ => rfl, fun h => absurd rfl h⟩
    | none =>
      obtain ⟨bb, bs, bstack⟩ := b
      cases bstack with
      | nil => exact ⟨fun h => (nomatch h), fun _ => rfl⟩
      | cons top stack_rest => exact ⟨fun _ => rfl, fun h => absurd rfl h⟩
  | IncrementCell a =>
    cases p <;> exact ⟨fun _ => rfl, fun h => absurd rfl h⟩
  | MovePointer a =>
    cases p <;> exact ⟨fun _ => rfl, fun h => absurd rfl h⟩
  | OutputCell =>
    cases p <;> exact ⟨fun _ => rfl, fun h => absurd rfl h⟩
  | InputCell =>
    cases p <;> exact ⟨fun _ => rfl, fun h => absurd rfl h⟩

/-- Witness for C8 amended: a leaf push on a fresh builder. -/
theorem push_size_on_ok_w :
    (MidiASTBuilder.new.push .new_input).2.size = MidiASTBuilder.new.size + 1 :=
  (push_size_on_ok MidiASTBuilder.new .new_input).1 rfl

theorem push_leaf (b : MidiASTBuilder) (p : Option Position) (k : MidiInstructionKind)
    (h : k.isLoop = false) :
    b.push (.mk p k) =
      (.ok (), ⟨b.body ++ [.mk (some ⟨b.size, b.size⟩) k], b.size + 1, b.loop_stack⟩) := by
  cases k with
  | Loop body => simp [MidiInstructionKind.isLoop] at h
  | IncrementCell a => cases p <;> rfl
  | MovePointer a => cases p <;> rfl
  | OutputCell => cases p <;> rfl
  | InputCell => cases p <;> rfl

theorem stampFrom_length (l : List MidiInstruction) : ∀ s, (stampFrom s l).length = l.length := by
  induction l with
  | nil => intro s; rfl
  | cons i is ih =>
    intro s
    obtain ⟨p, k⟩ := i
    simp [stampFrom, ih]

theorem stampFrom_get (l : List MidiInstruction) :
    ∀ (s i : Nat) (hi : i < (stampFrom s l).length),
      ((stampFrom s l).get ⟨i, hi⟩).position = some ⟨s + i, s + i⟩ := by
  induction l with
  | nil => intro s i hi; simp [stampFrom] at hi
  | cons j js ih =>
    intro s i hi
    obtain ⟨p, k⟩ := j
    cases i with
    | zero => simp [stampFrom, MidiInstruction.position]
    | succ i2 =>
      have hi2 : i2 < (stampFrom (s + 1) js).length := by
        simp only [stampFrom, List.length_cons] at hi
        omega
      have := ih (s + 1) i2 hi2
      simp only [stampFrom, List.get_cons_succ, this]
      congr 1
      simp
      omega

theorem runPushes_leaves (insts : List MidiInstruction)
    (h : ∀ i ∈ insts, i.instruction.isLoop = false) :
    ∀ b : MidiASTBuilder,
      runPushes b insts = .ok ⟨b.body ++ stampFrom b.size insts, b.size + insts.length, b.loop_stack⟩ := by
  induction insts with
  | nil =>
    intro b
    obtain ⟨bb, bs, bstack⟩ := b
    simp [runPushes, stampFrom]
  | cons i is ih =>
    intro b
    obtain ⟨p, k⟩ := i
    have hk : k.isLoop = false := h _ (List.mem_cons_self _ _)
    have hrest : ∀ j ∈ is, j.instruction.isLoop = false :=
      fun j hj => h j (List.mem_cons_of_mem _ hj)
    simp only [runPushes, push_leaf b p k hk]
    rw [ih hrest]
    simp only [stampFrom]
    congr 1
    simp [List.append_assoc]
    omega

/-- C5: pushing `n` loop-free leaf instructions into a fresh builder and
finalizing succeeds with a program of length `n` whose `i`-th instruction
carries position `(i, i)`. -/
theorem flat_builder_roundtrip (insts : List MidiInstruction)
    (h : ∀ i ∈ insts, i.instruction.isLoop = false) :
    buildProgram insts = .ok (stampFrom 0 insts) ∧
    (stampFrom 0 insts).length = insts.length ∧
    ∀ (i : Nat) (hi : i < (stampFrom 0 insts).length),
      ((stampFrom 0 insts).get ⟨i, hi⟩).position = some ⟨i, i⟩ := by
  refine ⟨?_, stampFrom_length insts 0, ?_⟩
  · unfold buildProgram
    rw [runPushes_leaves insts h MidiASTBuilder.new]
    rfl
  · intro i hi
    have := stampFrom_get insts 0 i hi
    simpa using this

/-- Witness for C5 on a two-leaf push sequence. -/
theorem flat_builder_roundtrip_w :
    buildProgram [MidiInstruction.new_inc 1, MidiInstruction.new_move 1] =
      .ok [.mk (some ⟨0, 0⟩) (.IncrementCell 1), .mk (some ⟨1, 1⟩) (.MovePointer 1)] :=
  (flat_builder_roundtrip [MidiInstruction.new_inc 1, MidiInstruction.new_move 1]
    (by decide)).1

/-- C6: whenever a push sequence leaves `k > 0` loops open, finalization
fails with `UnclosedLoop` carrying exactly `k` positions, one `(start, start)`
entry per still-open loop in the stack's bottom-to-top (first-opened-first)
order. -/
theorem unclosed_loops_all_reported (insts : List MidiInstruction)
    (b : MidiASTBuilder) (k : Nat)
    (h1 : runPushes .new insts = .ok b)
    (h2 : b.loop_stack.length = k) (h3 : 0 < k) :
    b.into_mast =
      .error (.UnclosedLoop (b.loop_stack.reverse.map fun s => ⟨s.2, s.2⟩)) ∧
    (b.loop_stack.reverse.map fun s : List MidiInstruction × Nat =>
      (⟨s.2, s.2⟩ : Position)).length = k := by
  constructor
  · cases hb : b.loop_stack with
    | nil => rw [hb] at h2; simp at h2; omega
    | cons top stack_rest =>
      unfold MidiASTBuilder.into_mast
      rw [hb]
      rfl
  · simp [h2]

/-- Witness for C6: two unmatched opens are both reported, first-opened
first. -/
theorem unclosed_loops_all_reported_w :
    (MidiASTBuilder.mk [] 2 [([], 1), ([], 0)]).into_mast =
      .error (.UnclosedLoop [⟨0, 0⟩, ⟨1, 1⟩]) ∧
    ([(⟨0, 0⟩ : Position), ⟨1, 1⟩]).length = 2 := by
  have h := unclosed_loops_all_reported
    [MidiInstruction.new_open_loop, MidiInstruction.new_open_loop]
    ⟨[], 2, [([], 1), ([], 0)]⟩ 2 rfl rfl (by decide)
  exact h

theorem scanArg_skip (l : List Nat) (root : Nat) :
    scanArg l root none none =
      match l.dropWhile (fun v => v == root) with
      | [] => none
      | b :: after => scanArg after b (some b) none := by
  induction l with
  | nil => rfl
  | cons v tl ih =>
    simp only [List.dropWhile_cons, beq_iff_eq]
    by_cases hv : root = v
    · subst hv
      simp only [scanArg, if_pos rfl]
      exact ih
    · have hv2 : ¬ v = root := fun h => hv h.symm
      simp only [scanArg, if_neg hv, if_neg hv2]

theorem scanArg_skip_cons (l : List Nat) (root b : Nat) (after : List Nat)
    (h : l.dropWhile (fun v => v == root) = b :: after) :
    scanArg l root none none = scanArg after b (some b) none := by
  rw [scanArg_skip, h]

theorem scanArg_skip_nil (l : List Nat) (root : Nat)
    (h : l.dropWhile (fun v => v == root) = []) :
    scanArg l root none none = none := by
  rw [scanArg_skip, h]

theorem specAmount_cons (v0 : Nat) (rest : List Nat) (b : Nat) (after : List Nat)
    (h : rest.dropWhile (fun v => v == v0 % 12) = b :: after) :
    specAmount v0 rest =
      (if (after.filter (fun v => v != b)).isEmpty then 1
       else wrap8 (((after.filter (fun v => v != b)).map fun v => twoPow (v - b - 1)).sum)) := by
  unfold specAmount
  rw [h]

theorem specAmount_nil (v0 : Nat) (rest : List Nat)
    (h : rest.dropWhile (fun v => v == v0 % 12) = []) :
    specAmount v0 rest = 1 := by
  unfold specAmount
  rw [h]

theorem scanArg_base :
    ∀ (l : List Nat) (b : Nat), b < 256 →
      (∀ v ∈ l, b ≤ v ∧ v ≤ b + 9 ∧ v < 256) →
      ∀ acc : Option Int,
        scanArg l b (some b) acc =
          (if (l.filter (fun v => v != b)).isEmpty then acc
           else some (wrap8 (acc.getD 0 +
             ((l.filter (fun v => v != b)).map fun v => twoPow (v - b - 1)).sum))) := by
  intro l
  induction l with
  | nil => intro b hb hl acc; rfl
  | cons v tl ih =>
    intro b hb hl acc
    obtain ⟨hbv, hv9, hv256⟩ := hl v (List.mem_cons_self _ _)
    have htl : ∀ w ∈ tl, b ≤ w ∧ w ≤ b + 9 ∧ w < 256 :=
      fun w hw => hl w (List.mem_cons_of_mem _ hw)
    by_cases hvb : b = v
    · subst hvb
      simp only [scanArg, if_pos rfl, List.filter_cons, bne_self_eq_false,
        Bool.false_eq_true, if_false]
      exact ih b hb htl acc
    · have hne : (v != b) = true := by
        simp only [bne_iff_ne, ne_eq]
        exact fun h => hvb h.symm
      have hsub2 : sub8 (sub8 v b) 1 = v - b - 1 := by
        simp only [sub8]
        omega
      have htmp2 : ¬ 8 < v - b - 1 := by omega
      simp only [scanArg, if_neg hvb, hsub2, if_neg htmp2, List.filter_cons, hne,
        if_true, List.isEmpty_cons, Bool.false_eq_true, if_false,
        List.map_cons, List.sum_cons]
      generalize twoPow (v - b - 1) = g
      cases acc with
      | none =>
        rw [ih b hb htl (some (wrap8 g))]
        by_cases hft : (tl.filter (fun v => v != b)).isEmpty
        · rw [if_pos hft]
          have hemp : tl.filter (fun v => v != b) = [] := by
            simpa [List.isEmpty_iff] using hft
          rw [hemp]
          simp only [List.map_nil, List.sum_nil, add_zero, Option.getD_none, zero_add]
        · rw [if_neg hft]
          simp only [Option.getD_none, Option.getD_some]
          congr 1
          rw [wrap8_add_left]
          congr 1
          ring
      | some xx =>
        rw [ih b hb htl (some (wrap8 (xx + wrap8 g)))]
        by_cases hft : (tl.filter (fun v => v != b)).isEmpty
        · rw [if_pos hft]
          have hemp : tl.filter (fun v => v != b) = [] := by
            simpa [List.isEmpty_iff] using hft
          rw [hemp]
          simp only [List.map_nil, List.sum_nil, add_zero, Option.getD_some]
          rw [wrap8_add_right]
        · rw [if_neg hft]
          simp only [Option.getD_some]
          congr 1
          rw [wrap8_add_left]
          simp only [wrap8]
          omega

/-- C4 counterexample: on the ascending chord `[5, 7, 9, 9]` (which truncates
nothing) the repeated `9` is counted twice — `prev` stays at the base after it
is chosen — so the decoded amount is `-4`, not the `-2` of `[5, 7, 9]`. -/
theorem duplicate_note_changes_amount :
    decodedIncAmount (parse_chord [5, 7, 9, 9]) = some (-4) ∧
    decodedIncAmount (parse_chord [5, 7, 9]) = some (-2) ∧
    decodedIncAmount (parse_chord [5, 7, 9, 9]) ≠ decodedIncAmount (parse_chord [5, 7, 9]) :=
  ⟨rfl, rfl, by decide⟩

/-- C4 amended: for a nonempty ascending `u8` chord that decodes without
truncation, the amount is the `i8`-wrapped sum of `2 ^ (v - base - 1)` over
every *occurrence* of a value `v` distinct from the base after the base note
(leading copies of the root's pitch class are skipped before the base is
chosen); repeating the base never changes the amount, but repeating any later
note adds its term once per occurrence. -/
theorem chord_amount_multiset_sum (v0 : Nat) (rest : List Nat)
    (hsorted : List.Sorted (· ≤ ·) (v0 :: rest))
    (hbound : ∀ v ∈ v0 :: rest, v < 256)
    (htrunc : ∀ b after, rest.dropWhile (fun v => v == v0 % 12) = b :: after →
      ∀ v ∈ after, v ≤ b + 9) :
    chordAmount v0 rest = specAmount v0 rest := by
  unfold chordAmount
  cases hdw : rest.dropWhile (fun v => v == v0 % 12) with
  | nil => rw [scanArg_skip_nil rest (v0 % 12) hdw, specAmount_nil v0 rest hdw]; rfl
  | cons b after =>
    have hsub : (b :: after).Sublist rest := by
      have := (List.dropWhile_suffix (l := rest) (fun v => v == v0 % 12)).sublist
      rwa [hdw] at this
    have hmem : ∀ v ∈ b :: after, v ∈ rest := fun v hv => hsub.subset hv
    have hb256 : b < 256 :=
      hbound b (List.mem_cons_of_mem _ (hmem b (List.mem_cons_self _ _)))
    have hsorted2 : List.Sorted (· ≤ ·) (b :: after) :=
      List.Pairwise.sublist hsub (List.sorted_cons.mp hsorted).2
    have hb_le : ∀ v ∈ after, b ≤ v := (List.sorted_cons.mp hsorted2).1
    have h9 : ∀ v ∈ after, v ≤ b + 9 := htrunc b after hdw
    have h256 : ∀ v ∈ after, v < 256 :=
      fun v hv => hbound v (List.mem_cons_of_mem _ (hmem v (List.mem_cons_of_mem _ hv)))
    rw [scanArg_skip_cons rest (v0 % 12) b after hdw, specAmount_cons v0 rest b after hdw,
      scanArg_base after b hb256 (fun v hv => ⟨hb_le v hv, h9 v hv, h256 v hv⟩) none]
    by_cases hft : (after.filter (fun v => v != b)).isEmpty
    · rw [if_pos hft, if_pos hft]
      rfl
    · rw [if_neg hft, if_neg hft]
      simp only [Option.getD_none, Option.getD_some, zero_add]

/-- Witness for C4 amended at the chord `[5, 7, 9, 9]`: both sides are `4`
(before the `root = 5` negation). -/
theorem chord_amount_multiset_sum_w :
    chordAmount 5 [7, 9, 9] = specAmount 5 [7, 9, 9] :=
  chord_amount_multiset_sum 5 [7, 9, 9] (by decide) (by decide)
    (by
      intro b after h
      have h2 : (7 :: [9, 9] : List Nat) = b :: after := h
      injection h2 with hb ha
      subst hb
      subst ha
      decide)

/-! The no-panic invariant of the event walk: whenever `current_node` is
empty, `notes_on` is at most zero, so a decode (which fires only when
`notes_on` falls from positive to zero) always sees a nonempty chord. -/

theorem parse_chord_eq_none (l : List Nat) : parse_chord l = none ↔ l = [] := by
  cases l <;> simp [parse_chord]

theorem processEvent_ne_panic (st : TrackState) (ev : MidiEvent)
    (hinv : st.current_node = [] → st.notes_on ≤ 0) :
    processEvent st ev ≠ .panic := by
  cases ev with
  | noteOn k => simp [processEvent]
  | other => simp [processEvent]
  | noteOff k =>
    simp only [processEvent]
    by_cases hn : st.notes_on - 1 = 0
    · rw [if_pos hn]
      have hlen : (List.insertionSort (· ≤ ·) st.current_node).length =
          st.current_node.length :=
        (List.perm_insertionSort _ _).length_eq
      split
      next heq =>
        exfalso
        have hs0 : List.insertionSort (· ≤ ·) st.current_node = [] :=
          (parse_chord_eq_none _).mp heq
        rw [hs0] at hlen
        have h0 : st.current_node = [] := List.length_eq_zero.mp hlen.symm
        have := hinv h0
        omega
      next node heq =>
        split <;> simp
      next e heq => simp
    · rw [if_neg hn]
      simp

theorem processEvent_inv (st : TrackState) (ev : MidiEvent) (st2 : TrackState)
    (hinv : st.current_node = [] → st.notes_on ≤ 0)
    (h : processEvent st ev = .pok st2) :
    st2.current_node = [] → st2.notes_on ≤ 0 := by
  cases ev with
  | noteOn k =>
    simp only [processEvent] at h
    injection h with h
    subst h
    intro h0
    exact absurd h0 (by simp)
  | other =>
    simp only [processEvent] at h
    injection h with h
    subst h
    exact hinv
  | noteOff k =>
    simp only [processEvent] at h
    by_cases hn : st.notes_on - 1 = 0
    · rw [if_pos hn] at h
      split at h
      next heq => exact absurd h (by simp)
      next node heq =>
        split at h
        next b2 heq2 =>
          injection h with h
          subst h
          intro _
          show st.notes_on - 1 ≤ 0
          omega
        next e heq2 => exact absurd h (by simp)
      next e heq => exact absurd h (by simp)
    · rw [if_neg hn] at h
      injection h with h
      subst h
      intro h0
      have := hinv h0
      show st.notes_on - 1 ≤ 0
      omega

theorem processEvents_ne_panic (evs : List MidiEvent) :
    ∀ st : TrackState, (st.current_node = [] → st.notes_on ≤ 0) →
      processEvents st evs ≠ .panic := by
  induction evs with
  | nil => intro st _; simp [processEvents]
  | cons e es ih =>
    intro st h
    simp only [processEvents]
    cases hpe : processEvent st e with
    | panic => exact absurd hpe (processEvent_ne_panic st e h)
    | perror err => simp [PResult.andThen]
    | pok st2 =>
      simp only [PResult.andThen]
      exact ih st2 (processEvent_inv st e st2 h hpe)

theorem processTracks_ne_panic (ts : List (List MidiEvent)) :
    ∀ (b : MidiASTBuilder) (node : List Nat), processTracks b node ts ≠ .panic := by
  induction ts with
  | nil => intro b node; simp [processTracks]
  | cons t ts2 ih =>
    intro b node
    simp only [processTracks]
    cases hpe : processEvents ⟨b, node, 0⟩ t with
    | panic => exact absurd hpe (processEvents_ne_panic t ⟨b, node, 0⟩ (fun _ => le_refl 0))
    | perror e => simp [PResult.andThen]
    | pok st =>
      simp only [PResult.andThen]
      exact ih st.builder st.current_node

/-- C9: `parse` never reaches the decoder with an empty chord — the
`vals.get(0).unwrap()` panic is unreachable from `parse` on any input. -/
theorem parse_never_panics (tracks : List (List MidiEvent)) :
    parse tracks ≠ .panic := by
  unfold parse
  by_cases he : tracks.isEmpty
  · rw [if_pos he]; simp
  · rw [if_neg he]
    cases hpt : processTracks .new [] tracks with
    | panic => exact absurd hpt (processTracks_ne_panic tracks _ _)
    | perror e => simp [PResult.andThen]
    | pok p =>
      simp only [PResult.andThen]
      unfold finishMast
      split <;> simp

/-- Witness for C9 on a one-chord input. -/
theorem parse_never_panics_w :
    parse [[.noteOn 9, .noteOff 9]] ≠ .panic :=
  parse_never_panics [[.noteOn 9, .noteOff 9]]

/-! Appending note-on-only events at the end of the final track never changes
the parse result: no decode can fire after them. -/

theorem processEvents_append (l1 l2 : List MidiEvent) : ∀ st : TrackState,
    processEvents st (l1 ++ l2) =
      (processEvents st l1).andThen fun st2 => processEvents st2 l2 := by
  induction l1 with
  | nil => intro st; rfl
  | cons e es ih =>
    intro st
    simp only [List.cons_append, processEvents]
    cases processEvent st e with
    | panic => rfl
    | perror err => rfl
    | pok st2 => simp only [PResult.andThen]; exact ih st2

theorem processEvents_noteOns :
    ∀ (l : List MidiEvent), (∀ e ∈ l, e.isNoteOn = true) →
      ∀ st : TrackState, ∃ node2 n2,
        processEvents st l = .pok ⟨st.builder, node2, n2⟩ := by
  intro l
  induction l with
  | nil =>
    intro _ st
    exact ⟨st.current_node, st.notes_on, rfl⟩
  | cons e es ih =>
    intro h st
    have he := h e (List.mem_cons_self _ _)
    cases e with
    | noteOn k =>
      simp only [processEvents, processEvent]
      exact ih (fun e2 he2 => h e2 (List.mem_cons_of_mem _ he2))
        ⟨st.builder, st.current_node ++ [k], st.notes_on + 1⟩
    | noteOff k => simp [MidiEvent.isNoteOn] at he
    | other => simp [MidiEvent.isNoteOn] at he

theorem processTracks_append (ts1 ts2 : List (List MidiEvent)) :
    ∀ (b : MidiASTBuilder) (node : List Nat),
      processTracks b node (ts1 ++ ts2) =
        (processTracks b node ts1).andThen fun bn => processTracks bn.1 bn.2 ts2 := by
  induction ts1 with
  | nil => intro b node; rfl
  | cons t ts ih =>
    intro b node
    simp only [List.cons_append, processTracks]
    cases processEvents ⟨b, node, 0⟩ t with
    | panic => rfl
    | perror e => rfl
    | pok st => simp only [PResult.andThen]; exact ih st.builder st.current_node

/-- C10 amended: note-on events appended at the end of the final track —
notes held when the whole input ends — are silently discarded: they raise no
error and change nothing in the parse result. -/
theorem trailing_noteOns_ignored (ts : List (List MidiEvent)) (t extra : List MidiEvent)
    (h : ∀ e ∈ extra, e.isNoteOn = true) :
    parse (ts ++ [t ++ extra]) = parse (ts ++ [t]) := by
  unfold parse
  rw [if_neg (by simp), if_neg (by simp)]
  rw [processTracks_append, processTracks_append]
  cases hpt : processTracks .new [] ts with
  | panic => rfl
  | perror e => rfl
  | pok p =>
    simp only [PResult.andThen, processTracks]
    rw [processEvents_append]
    cases hpe : processEvents ⟨p.1, p.2, 0⟩ t with
    | panic => rfl
    | perror e => rfl
    | pok st =>
      simp only [PResult.andThen]
      obtain ⟨node3, n3, hno⟩ := processEvents_noteOns extra h st
      rw [hno]

/-- Witness for C10 amended: a trailing unmatched note-on changes nothing. -/
theorem trailing_noteOns_ignored_w :
    parse [[.noteOn 9, .noteOff 9, .noteOn 5]] = parse [[.noteOn 9, .noteOff 9]] :=
  trailing_noteOns_ignored [] [.noteOn 9, .noteOff 9] [.noteOn 5] (by decide)

/-- C10 counterexample: a note held at the end of track 1 (key 62) is *not*
discarded — it persists in `current_node` and merges into track 2's chord,
turning `IncrementCell 1` into `IncrementCell 2`. -/
theorem held_notes_cross_tracks :
    progIncAmounts
      (parse [[.noteOn 62], [.noteOn 9, .noteOn 64, .noteOff 64, .noteOff 9]]) =
      some [some 2] ∧
    progIncAmounts
      (parse [[], [.noteOn 9, .noteOn 64, .noteOff 64, .noteOff 9]]) =
      some [some 1] ∧
    progIncAmounts
      (parse [[.noteOn 62], [.noteOn 9, .noteOn 64, .noteOff 64, .noteOff 9]]) ≠
    progIncAmounts
      (parse [[], [.noteOn 9, .noteOn 64, .noteOff 64, .noteOff 9]]) :=
  ⟨rfl, rfl, by decide⟩

end Midilang
